import Mathlib

/-!
Verification of the ALAC decoder in src/audiotools/py_decoders/alac.py
(class ALACDecoder) against its natural-language specification.

The decoder is shallowly embedded: the bit-oriented stream reader is a list
of booleans together with a consumed-bit counter, all Python integers become
Lean Int (or Nat where the source value is provably nonnegative), Python
floor division and arithmetic right shift become Int.fdiv, and every fallible
operation returns Option (none models a raised Python exception such as
IOError, IndexError or ValueError).

Python 2 semantics reproduced here: the / operator on ints is floor
division, >> on ints is an arithmetic shift (floor division by a power of
two), << is exact multiplication by a power of two, and ints are unbounded.
-/

set_option maxRecDepth 4000

namespace ALACDecoder

/-- State of the bit-oriented stream reader (an external collaborator of the
decoder, spec section 6): the remaining bits of the stream, most significant
bit first, plus the count of bits consumed so far (needed to model
byte-alignment).  Per spec section 9, the Rice decoder's pushback (unread) is
modelled as returning just-read bits to the front of the stream rather than
as true stream rewinding. -/
structure BitReader where
  bits : List Bool
  pos : Nat
deriving DecidableEq

/-- Value of a bit string read most-significant-bit first. -/
def bitsVal (l : List Bool) : Nat :=
  l.foldl (fun a b => 2 * a + (if b then 1 else 0)) 0

/-- BitstreamReader.read(n): consume n bits and return their unsigned value.
Fails (IOError) when fewer than n bits remain. -/
def readBits (n : Nat) (br : BitReader) : Option (Nat × BitReader) :=
  if n ≤ br.bits.length then
    some (bitsVal (br.bits.take n), ⟨br.bits.drop n, br.pos + n⟩)
  else none

/-- BitstreamReader.read with a Python int argument that may be negative
(the residual fallback width is computed by signed arithmetic in
read_frame); a negative width is a stream error. -/
def readBitsI (n : Int) (br : BitReader) : Option (Nat × BitReader) :=
  if n < 0 then none else readBits n.toNat br

/-- BitstreamReader.read_signed(n): n-bit two's-complement signed value,
most significant bit first. -/
def readSigned (n : Nat) (br : BitReader) : Option (Int × BitReader) :=
  match readBits n br with
  | none => none
  | some (u, br1) =>
    some (if u < 2 ^ (n - 1) then (u : Int) else (u : Int) - 2 ^ n, br1)

/-- Consume a single bit. -/
def readBit (br : BitReader) : Option (Bool × BitReader) :=
  match br.bits with
  | [] => none
  | b :: rest => some (b, ⟨rest, br.pos + 1⟩)

/-- BitstreamReader.limited_unary(0, limit): count continuation bits (1s)
until the stop bit 0 appears, consuming the stop bit as well; if limit
continuation bits are read without a stop bit, the inner result is none
(the escape case) and exactly limit bits have been consumed. -/
def limitedUnary : Nat → BitReader → Option (Option Nat × BitReader)
  | 0, br => some (none, br)
  | limit + 1, br =>
    match readBit br with
    | none => none
    | some (false, br1) => some (some 0, br1)
    | some (true, br1) =>
      match limitedUnary limit br1 with
      | none => none
      | some (none, br2) => some (none, br2)
      | some (some m, br2) => some (some (m + 1), br2)

/-- Return one just-read bit to the front of the stream (the unconsumed-bits
counter model of unread from spec section 9). -/
def pushBit (b : Bool) (br : BitReader) : BitReader :=
  ⟨b :: br.bits, br.pos - 1⟩

/-- BitstreamReader.byte_align: discard bits up to the next byte boundary of
the consumed-bit position. -/
def byteAlign (br : BitReader) : BitReader :=
  ⟨br.bits.drop ((8 - br.pos % 8) % 8), br.pos + (8 - br.pos % 8) % 8⟩

/-- Read a fixed number of items with a given reader action, in order
(models the Python list comprehensions over xrange). -/
def readList {α : Type} (f : BitReader → Option (α × BitReader)) :
    Nat → BitReader → Option (List α × BitReader)
  | 0, br => some ([], br)
  | n + 1, br => do
    let (x, br1) ← f br
    let (xs, br2) ← readList f n br1
    return (x :: xs, br2)

/-- Source log2 (alac.py lines 8-13): bits = -1; while i: bits += 1;
i >>= 1 — i.e. one less than the bit length, and -1 on input 0.  The
while loop halves its argument each iteration, so it runs at most i
iterations; the first argument of the helper is that iteration bound,
which makes the recursion structural (and hence kernel-reducible). -/
def log2_fuel : Nat → Nat → Int
  | 0, _ => -1
  | fuel + 1, i => if i = 0 then -1 else 1 + log2_fuel fuel (i / 2)

/-- Source log2 entry point. -/
def log2 (i : Nat) : Int := log2_fuel i i

/-- Source sign_only (alac.py lines 16-22). -/
def sign_only (value : Int) : Int :=
  if value = 0 then 0 else if value > 0 then 1 else -1

/-- ALACDecoder.read_residual (alac.py lines 262-277): one modified Rice
code.  A unary prefix capped at 9 selects either the escape (a fixed-width
sample_size-bit field) or, when k is positive, a k-bit suffix; suffix
values 0 and 1 both yield msb*(2^k - 1), with the suffix-1 case returning
one bit to the stream (reader.unread(1)) and the suffix-0 case returning
none (reader.unread(0)), per the pushback model of spec section 9; suffix
values of 2 or more yield msb*(2^k - 1) + (suffix - 1). -/
def read_residual (k : Nat) (sample_size : Int) (br : BitReader) :
    Option (Nat × BitReader) :=
  match limitedUnary 9 br with
  | none => none
  | some (none, br1) => readBitsI sample_size br1
  | some (some msb, br1) =>
    if k = 0 then some (msb, br1)
    else
      match readBits k br1 with
      | none => none
      | some (lsb, br2) =>
        if lsb > 1 then some (msb * ((1 <<< k) - 1) + (lsb - 1), br2)
        else if lsb = 1 then some (msb * ((1 <<< k) - 1), pushBit true br2)
        else some (msb * ((1 <<< k) - 1), br2)

/-- Adaptive Rice parameter k = min(log2(history / 2^9 + 3), maximum_k)
(alac.py line 221).  Python / on nonnegative ints is floor division; the
argument of log2 is at least 3, so the result is nonnegative and toNat is
exact. -/
def rice_k (maxK : Nat) (history : Int) : Nat :=
  (min (log2 (history.toNat / 2 ^ 9 + 3)) (maxK : Int)).toNat

/-- Unsigned-to-signed residual mapping (alac.py lines 229-232): odd
values map to -((u + 1) / 2), even values to u / 2 (Python floor division
of nonnegative ints). -/
def signed_residual (unsigned : Nat) : Int :=
  if unsigned % 2 = 1 then -(((unsigned + 1) / 2 : Nat) : Int)
  else ((unsigned / 2 : Nat) : Int)

/-- History update (alac.py lines 235-239): history += unsigned*mult -
((history*mult) >> 9) while unsigned fits in 16 bits, else the 0xFFFF
clamp.  Python >> on an int is floor division by the power of two
(Int.fdiv). -/
def history_update (mult : Nat) (history : Int) (unsigned : Nat) : Int :=
  if unsigned ≤ 0xFFFF then
    history + (unsigned * mult : Nat) - Int.fdiv (history * (mult : Int)) (2 ^ 9)
  else 0xFFFF

/-- Zero-run Rice parameter zeroes_k = min(7 - log2(history) +
(history + 16) / 64, maximum_k) (alac.py lines 244-247), evaluated at the
freshly updated history (which is below 128 on this path). -/
def zeroes_k_of (maxK : Nat) (history1 : Int) : Nat :=
  (min (7 - log2 history1.toNat + ((history1.toNat + 16) / 64 : Nat))
    (maxK : Int)).toNat

/-- Loop body of ALACDecoder.read_residuals (alac.py lines 212-260),
with rem = sample_count - i the remaining requested residual count.
Returns the residuals produced, the trace of history values after every
history update step (including the zero-run reset to 0), and the final
reader.  The loop increases i by at least one per iteration, so it runs at
most sample_count iterations; the extra first argument is that iteration
bound, making the recursion structural.  It is initialised to rem, and
since rem decreases at least as fast as the bound, the bound-exhausted
case coincides with rem = 0 and the embedding is exact.
History is an Int evolving exactly as the Python int does; history stays
nonnegative for every 8-bit history_multiplier (proved below), matching
the domain on which the Python log2 terminates, so taking toNat before
log2 in rice_k and zeroes_k_of is faithful. -/
def read_residuals_loop (mult maxK : Nat) (sample_size : Int) :
    Nat → Nat → Int → Nat → BitReader →
    Option (List Int × List Int × BitReader)
  | 0, _, _, _, br => some ([], [], br)
  | _ + 1, 0, _, _, br => some ([], [], br)
  | fuel + 1, rem + 1, history, sign_modifier, br =>
    match read_residual (rice_k maxK history) sample_size br with
    | none => none
    | some (u0, br1) =>
      let unsigned := u0 + sign_modifier
      let history1 := history_update mult history unsigned
      if history1 < 128 ∧ 0 < rem then
        match read_residual (zeroes_k_of maxK history1) 16 br1 with
        | none => none
        | some (zero_residuals, br2) =>
          match read_residuals_loop mult maxK sample_size fuel
              (rem - zero_residuals) 0
              (if zero_residuals ≤ 0xFFFF then 1 else 0) br2 with
          | none => none
          | some (rs, hs, br3) =>
            some (signed_residual unsigned ::
              (List.replicate zero_residuals 0 ++ rs),
              history1 :: 0 :: hs, br3)
      else
        match read_residuals_loop mult maxK sample_size fuel rem history1 0 br1 with
        | none => none
        | some (rs, hs, br3) =>
          some (signed_residual unsigned :: rs, history1 :: hs, br3)

/-- ALACDecoder.read_residuals (alac.py lines 212-260): the list of signed
residuals for one channel.  mult, maxK and initial_history are the stream
parameters history_multiplier, maximum_k and initial_history. -/
def read_residuals (mult maxK initial_history : Nat) (sample_size : Int)
    (sample_count : Nat) (br : BitReader) : Option (List Int × BitReader) :=
  match read_residuals_loop mult maxK sample_size sample_count sample_count
      (initial_history : Int) 0 br with
  | none => none
  | some (rs, _, br1) => some (rs, br1)

/-- Trace of the history state values after every update step during one
read_residuals call (derived from the same loop). -/
def read_residuals_histories (mult maxK initial_history : Nat)
    (sample_size : Int) (sample_count : Nat) (br : BitReader) :
    Option (List Int) :=
  match read_residuals_loop mult maxK sample_size sample_count sample_count
      (initial_history : Int) 0 br with
  | none => none
  | some (_, hs, _) => some hs

/-- ALACDecoder.read_subframe_header (alac.py lines 203-210): reads the
4-bit prediction type, 4-bit QLP shift, 3-bit rice modifier, 5-bit
coefficient count and the signed 16-bit coefficients.  The prediction type
and rice modifier are read and discarded; only (qlp_shift_needed,
qlp_coefficients) is returned. -/
def read_subframe_header (br : BitReader) :
    Option ((Nat × List Int) × BitReader) := do
  let (_prediction_type, br1) ← readBits 4 br
  let (qlp_shift_needed, br2) ← readBits 4 br1
  let (_rice_modifier, br3) ← readBits 3 br2
  let (coeff_count, br4) ← readBits 5 br3
  let (qlp_coefficients, br5) ← readList (readSigned 16) coeff_count br4
  return ((qlp_shift_needed, qlp_coefficients), br5)

/-- Warm-up phase of ALACDecoder.decode_subframe (alac.py lines 280-282):
samples = [first]; then each further warm-up residual appends the previous
sample plus that residual. -/
def warm_up (acc : Int) : List Int → List Int
  | [] => [acc]
  | r :: rs => acc :: warm_up (acc + r) rs

/-- Positive-residual coefficient adaptation loop (alac.py lines 296-309).
The counter argument is predictor_num + 1, so counter value c means
predictor_num = c - 1 and counter 0 means the loop condition
predictor_num >= 0 failed. -/
def adapt_pos (shift n : Nat) (buf : List Int) :
    Nat → List Int → Int → List Int × Int
  | 0, coeffs, residual => (coeffs, residual)
  | c + 1, coeffs, residual =>
    if residual > 0 then
      let val := buf.getD 0 0 - buf.getD (n - c) 0
      let sgn := sign_only val
      let coeffs1 := coeffs.set c (coeffs.getD c 0 - sgn)
      let val1 := val * sgn
      let residual1 := residual - Int.fdiv val1 (2 ^ shift) * ((n - c : Nat) : Int)
      adapt_pos shift n buf c coeffs1 residual1
    else (coeffs, residual)

/-- Negative-residual coefficient adaptation loop (alac.py lines 311-325):
identical but with the inverted sign and the loop continuing while the
residual stays negative. -/
def adapt_neg (shift n : Nat) (buf : List Int) :
    Nat → List Int → Int → List Int × Int
  | 0, coeffs, residual => (coeffs, residual)
  | c + 1, coeffs, residual =>
    if residual < 0 then
      let val := buf.getD 0 0 - buf.getD (n - c) 0
      let sgn := -sign_only val
      let coeffs1 := coeffs.set c (coeffs.getD c 0 - sgn)
      let val1 := val * sgn
      let residual1 := residual - Int.fdiv val1 (2 ^ shift) * ((n - c : Nat) : Int)
      adapt_neg shift n buf c coeffs1 residual1
    else (coeffs, residual)

/-- Steady-state loop of ALACDecoder.decode_subframe (alac.py lines
284-327), one iteration per remaining residual, carrying the sample buffer
and the (mutated) coefficient table.  n is len(qlp_coefficients) at entry
(List.set preserves length, so it stays the table's length throughout).
Python's samples[-n:] slice with n = 0 is the whole list, but it is zipped
against the reversed empty coefficient table, so the empty window used here
gives the identical lpc_sum.  The expression 1 << (qlp_shift_needed - 1)
raises ValueError (negative shift count) in Python when the shift is 0,
modelled by returning none; buf is samples[-n-2:-1] taken after the append,
which equals the last n+1 elements of the pre-append buffer. -/
def decode_loop (qlp_shift_needed n : Nat) :
    List Int → List Int → List Int → Option (List Int × List Int)
  | [], samples, coeffs => some (samples, coeffs)
  | residual :: rest, samples, coeffs =>
    let base_sample := samples.getD (samples.length - (n + 1)) 0
    let window := samples.drop (samples.length - n)
    let lpc_sum :=
      (window.zip coeffs.reverse).foldl
        (fun acc p => acc + (p.1 - base_sample) * p.2) 0
    if qlp_shift_needed = 0 then none
    else
      let outval := Int.fdiv (2 ^ (qlp_shift_needed - 1) + lpc_sum)
        (2 ^ qlp_shift_needed)
      let new_sample := outval + residual + base_sample
      let samples1 := samples ++ [new_sample]
      let buf := samples.drop (samples.length - (n + 1))
      let coeffs1 :=
        if residual > 0 then (adapt_pos qlp_shift_needed n buf n coeffs residual).1
        else if residual < 0 then
          (adapt_neg qlp_shift_needed n buf n coeffs residual).1
        else coeffs
      decode_loop qlp_shift_needed n rest samples1 coeffs1

/-- ALACDecoder.decode_subframe (alac.py lines 279-327).  Returns the
reconstructed samples together with the final state of the (in-place
mutated) coefficient table.  Popping from a residual list shorter than
order + 1 raises IndexError in Python, modelled by none. -/
def decode_subframe (qlp_shift_needed : Nat)
    (qlp_coefficients residuals : List Int) : Option (List Int × List Int) :=
  match residuals with
  | [] => none
  | r0 :: rest =>
    if qlp_coefficients.length ≤ rest.length then
      decode_loop qlp_shift_needed qlp_coefficients.length
        (rest.drop qlp_coefficients.length)
        (warm_up r0 (rest.take qlp_coefficients.length)) qlp_coefficients
    else none

/-- ALACDecoder.decorrelate_channels (alac.py lines 329-342).  For exactly
two channels and a nonzero leftweight: right = ch1 - (ch2*leftweight)
floor-divided by 2^shift, left = ch2 + right, pointwise over the zipped
channels; every other input passes through unmodified. -/
def decorrelate_channels (channel_data : List (List Int))
    (interlacing_shift interlacing_leftweight : Nat) : List (List Int) :=
  match channel_data with
  | [ch1, ch2] =>
    if interlacing_leftweight = 0 then [ch1, ch2]
    else
      let right := (ch1.zip ch2).map
        (fun p => p.1 - Int.fdiv (p.2 * (interlacing_leftweight : Int))
          (2 ^ interlacing_shift))
      let left := (ch1.zip ch2).map
        (fun p => p.2 + (p.1 - Int.fdiv (p.2 * (interlacing_leftweight : Int))
          (2 ^ interlacing_shift)))
      [left, right]
  | other => other

/-- Stream parameters extracted once from the container configuration
(spec section 3); total_pcm_frames is kept separately since it mutates. -/
structure ALACParams where
  samples_per_frame : Nat
  bits_per_sample : Nat
  history_multiplier : Nat
  initial_history : Nat
  maximum_k : Nat
  channels : Nat
deriving DecidableEq

/-- De-interleave a flat list of sample_count * channel_count values into
channel lists (the Python samples[i::channel_count] slices, whose lengths
are exactly sample_count here). -/
def deinterleave (channel_count sample_count : Nat) (samples : List Int) :
    List (List Int) :=
  (List.range channel_count).map
    (fun i => (List.range sample_count).map
      (fun t => samples.getD (i + t * channel_count) 0))

/-- Python list slice l[start::step] for step ≥ 1 over a Nat list. -/
def sliceStep (l : List Nat) (start step : Nat) : List Nat :=
  (List.range ((l.length - start + step - 1) / step)).map
    (fun j => l.getD (start + j * step) 0)

/-- Uncompressed-LSB merge (alac.py lines 191-199): per channel i, assert
the channel length matches lsbs[i::channel_count] (AssertionError modelled
as none) and merge final = (sample << lsb_size*8) | lsb.  Python << on an
unbounded int is exact multiplication by the power of two, and | is the
two's-complement bitwise or (Int.lor). -/
def merge_lsbs (lsb_size channel_count : Nat) (lsbs : List Nat) :
    Nat → List (List Int) → Option (List (List Int))
  | _, [] => some []
  | i, ch :: rest =>
    let li := sliceStep lsbs i channel_count
    if ch.length = li.length then
      match merge_lsbs lsb_size channel_count lsbs (i + 1) rest with
      | none => none
      | some others =>
        some (((ch.zip li).map
          (fun p => Int.lor (p.1 * 2 ^ (lsb_size * 8)) ((p.2 : Nat) : Int))) :: others)
    else none

/-- Decode every channel's subframe (alac.py lines 176-181): zip the
subframe headers with the residual blocks and run decode_subframe on each;
only the sample lists are kept (the mutated coefficient tables are
discarded at the end of the sub-frame). -/
def decodeAll : List (Nat × List Int) → List (List Int) →
    Option (List (List Int))
  | h :: hs, r :: rs =>
    match decode_subframe h.1 h.2 r with
    | none => none
    | some (samples, _) =>
      match decodeAll hs rs with
      | none => none
      | some rest => some (samples :: rest)
  | _, _ => some []

/-- ALACDecoder.read_frame (alac.py lines 128-201): frame header, then
either the uncompressed path (raw interlaced signed samples) or the
compressed path (interlacing parameters, subframe headers, optional
uncompressed LSBs, residual decoding, subframe reconstruction,
decorrelation, LSB merge).  The residual fallback width
bits_per_sample - lsb_size*8 + channel_count - 1 is computed as a signed
Python int. -/
def read_frame (p : ALACParams) (channel_count : Nat) (br : BitReader) :
    Option (List (List Int) × BitReader) := do
  let (_, bra) ← readBits 16 br
  let (has_sample_count, brb) ← readBits 1 bra
  let (uncompressed_lsb_size, brc) ← readBits 2 brb
  let (uncompressed, brd) ← readBits 1 brc
  let (sample_count, bre) ←
    (if has_sample_count = 1 then readBits 32 brd
     else some (p.samples_per_frame, brd))
  if uncompressed = 1 then do
    let (samples, brf) ←
      readList (readSigned p.bits_per_sample) (sample_count * channel_count) bre
    return (deinterleave channel_count sample_count samples, brf)
  else do
    let (interlacing_shift, brg) ← readBits 8 bre
    let (interlacing_leftweight, brh) ← readBits 8 brg
    let (subframe_headers, bri) ← readList read_subframe_header channel_count brh
    let (uncompressed_lsbs, brj) ←
      (if 0 < uncompressed_lsb_size then
        readList (readBits (uncompressed_lsb_size * 8))
          (sample_count * channel_count) bri
       else some ([], bri))
    let sample_size : Int :=
      (p.bits_per_sample : Int) - ((uncompressed_lsb_size * 8 : Nat) : Int) +
        (channel_count : Int) - 1
    let (residual_blocks, brk) ←
      readList (read_residuals p.history_multiplier p.maximum_k
        p.initial_history sample_size sample_count) channel_count brj
    let decoded_subframes ← decodeAll subframe_headers residual_blocks
    let decorrelated := decorrelate_channels decoded_subframes
      interlacing_shift interlacing_leftweight
    if 0 < uncompressed_lsb_size then do
      let merged ← merge_lsbs uncompressed_lsb_size channel_count
        uncompressed_lsbs 0 decorrelated
      return (merged, brk)
    else return (decorrelated, brk)

/-- Frameset loop of ALACDecoder.read (alac.py lines 103-108): read 3-bit
channel-count fields, decoding one frame per field, until the sentinel
value 7 (channel count 8).  Every iteration consumes at least the 3
sentinel-check bits plus a 20-bit frame header net of any single-bit
pushbacks, so the loop runs fewer iterations than there are bits; the
first argument is that iteration bound. -/
def read_frameset (p : ALACParams) :
    Nat → BitReader → Option (List (List Int) × BitReader)
  | 0, _ => none
  | fuel + 1, br => do
    let (c3, br1) ← readBits 3 br
    if c3 + 1 = 8 then return ([], br1)
    else do
      let (chans, br2) ← read_frame p (c3 + 1) br1
      let (rest, br3) ← read_frameset p fuel br2
      return (chans ++ rest, br3)

/-- Check that the Python slice assignments samples[i::total_channels] =
channel (alac.py lines 114-117) all have matching lengths; a mismatch
raises ValueError. -/
def interleave_ok (total_channels total_len : Nat) :
    Nat → List (List Int) → Bool
  | _, [] => true
  | i, ch :: rest =>
    (ch.length == (total_len - i + total_channels - 1) / total_channels) &&
      interleave_ok total_channels total_len (i + 1) rest

/-- Interleave the per-channel sample lists channel-major: position j of
the output holds element j / total_channels of channel j % total_channels. -/
def interleave_samples (chans : List (List Int)) : List Int :=
  (List.range ((chans.map List.length).sum)).map
    (fun j => (chans.getD (j % chans.length) []).getD (j / chans.length) 0)

/-- ALACDecoder.read (alac.py lines 97-126).  Returns the PCM block as
(interleaved samples, channel count) plus the updated remaining-frame
counter and reader.  When total_pcm_frames is 0 an empty block is returned
and nothing else happens.  The produced frame count is
len(samples) // total_channels, the frames attribute of the pcm.FrameList
built by from_list (modelled from the spec, section 4.5: the assembler
decrements the stream's remaining-frame counter by the produced frame
count). -/
def read (p : ALACParams) (total_pcm_frames : Int) (br : BitReader) :
    Option ((List Int × Nat) × Int × BitReader) :=
  if total_pcm_frames = 0 then some (([], p.channels), total_pcm_frames, br)
  else
    match read_frameset p (br.bits.length + 1) br with
    | none => none
    | some (frameset_data, br1) =>
      let br2 := byteAlign br1
      let total_channels := frameset_data.length
      let total_len := (frameset_data.map List.length).sum
      if interleave_ok total_channels total_len 0 frameset_data then
        let samples := interleave_samples frameset_data
        some ((samples, total_channels),
          total_pcm_frames - ((samples.length / total_channels : Nat) : Int), br2)
      else none

/-- Cumulative sums of a residual list, written from the spec's words
(section 8, Order-0 predictor: sample[i] is the sum of the first i+1
residuals).  This is the spec-side comparator for the order-0 claim, not a
translation of the source. -/
def spec_cumulative_sum (residuals : List Int) : List Int :=
  (List.range residuals.length).map (fun i => (residuals.take (i + 1)).sum)


/-! Helper lemmas about the bit reader. -/

/-- Reading exactly the length of a prefix consumes that prefix. -/
theorem readBits_append (s rest : List Bool) (pos : Nat) :
    readBits s.length ⟨s ++ rest, pos⟩ = some (bitsVal s, ⟨rest, pos + s.length⟩) := by
  simp [readBits, List.take_left, List.drop_left]

/-- A unary code of m continuation bits below the limit terminates with
value m, consuming m + 1 bits. -/
theorem limitedUnary_term (rest : List Bool) : ∀ (limit m pos : Nat), m < limit →
    limitedUnary limit ⟨List.replicate m true ++ false :: rest, pos⟩ =
      some (some m, ⟨rest, pos + (m + 1)⟩) := by
  intro limit
  induction limit with
  | zero => intro m pos h; omega
  | succ L ih =>
    intro m pos h
    cases m with
    | zero => simp [limitedUnary, readBit]
    | succ m1 =>
      simp only [List.replicate_succ, List.cons_append, limitedUnary, readBit]
      rw [ih m1 (pos + 1) (by omega)]
      have : pos + 1 + (m1 + 1) = pos + (m1 + 1 + 1) := by omega
      simp [this]

/-- A run of limit continuation bits exhausts the unary limit (the escape
case), consuming exactly limit bits. -/
theorem limitedUnary_maxed (rest : List Bool) : ∀ (limit pos : Nat),
    limitedUnary limit ⟨List.replicate limit true ++ rest, pos⟩ =
      some (none, ⟨rest, pos + limit⟩) := by
  intro limit
  induction limit with
  | zero => intro pos; simp [limitedUnary]
  | succ L ih =>
    intro pos
    simp only [List.replicate_succ, List.cons_append, limitedUnary, readBit]
    rw [ih (pos + 1)]
    have : pos + 1 + L = pos + (L + 1) := by omega
    simp [this]

/-! Decorrelation lemmas (claims C7 and C8). -/

/-- Pointwise, left minus right recovers the second original channel. -/
theorem decorrelate_sub_aux (w : Int) (shift : Nat) :
    ∀ (ch1 ch2 : List Int), ch1.length = ch2.length →
      List.zipWith (fun l r => l - r)
        ((ch1.zip ch2).map (fun p => p.2 + (p.1 - Int.fdiv (p.2 * w) (2 ^ shift))))
        ((ch1.zip ch2).map (fun p => p.1 - Int.fdiv (p.2 * w) (2 ^ shift))) = ch2 := by
  intro ch1
  induction ch1 with
  | nil =>
    intro ch2 h
    have h2 : ch2 = [] := List.eq_nil_of_length_eq_zero h.symm
    simp [h2]
  | cons a t ih =>
    intro ch2 h
    cases ch2 with
    | nil => simp at h
    | cons b u =>
      simp only [List.zip_cons_cons, List.map_cons, List.zipWith_cons_cons]
      refine congrArg₂ List.cons (by ring) (ih u (by simpa using h))

/-- Pointwise, right plus the weighted floor quotient of the second channel
recovers the first original channel. -/
theorem decorrelate_add_aux (w : Int) (shift : Nat) :
    ∀ (ch1 ch2 : List Int), ch1.length = ch2.length →
      List.zipWith (fun r c2 => r + Int.fdiv (c2 * w) (2 ^ shift))
        ((ch1.zip ch2).map (fun p => p.1 - Int.fdiv (p.2 * w) (2 ^ shift))) ch2 = ch1 := by
  intro ch1
  induction ch1 with
  | nil =>
    intro ch2 h
    have h2 : ch2 = [] := List.eq_nil_of_length_eq_zero h.symm
    simp [h2]
  | cons a t ih =>
    intro ch2 h
    cases ch2 with
    | nil => simp at h
    | cons b u =>
      simp only [List.zip_cons_cons, List.map_cons, List.zipWith_cons_cons]
      refine congrArg₂ List.cons (by ring) (ih u (by simpa using h))

/-- Claim C7 (amended).  For equal-length input channels and a nonzero
leftweight, the decorrelation output [left, right] is inverted by the
forward correlation with the channel roles as the code assigns them:
left - right recovers the second decoded channel (ch2), and
right + (ch2*leftweight) >> shift recovers the first decoded channel (ch1)
— exactly, in pure integer arithmetic.  (The claim as frozen swaps ch1 and
ch2; see the counterexample.) -/
theorem alac_decorrelation_inverse (ch1 ch2 : List Int) (shift lw : Nat)
    (hlw : lw ≠ 0) (hlen : ch1.length = ch2.length) :
    ∃ left right,
      decorrelate_channels [ch1, ch2] shift lw = [left, right] ∧
      List.zipWith (fun l r => l - r) left right = ch2 ∧
      List.zipWith (fun r c2 => r + Int.fdiv (c2 * (lw : Int)) (2 ^ shift))
        right ch2 = ch1 := by
  refine ⟨(ch1.zip ch2).map
      (fun p => p.2 + (p.1 - Int.fdiv (p.2 * (lw : Int)) (2 ^ shift))),
    (ch1.zip ch2).map
      (fun p => p.1 - Int.fdiv (p.2 * (lw : Int)) (2 ^ shift)), ?_, ?_, ?_⟩
  · simp only [decorrelate_channels, if_neg hlw]
  · exact decorrelate_sub_aux (lw : Int) shift ch1 ch2 hlen
  · exact decorrelate_add_aux (lw : Int) shift ch1 ch2 hlen

/-- Claim C7 amended-theorem witness at ch1 = [7, -2], ch2 = [3, 5],
shift 2, leftweight 9. -/
theorem alac_decorrelation_inverse_witness :
    ∃ left right, decorrelate_channels [[7, -2], [3, 5]] 2 9 = [left, right] ∧
      List.zipWith (fun l r => l - r) left right = [3, 5] ∧
      List.zipWith (fun r c2 => r + Int.fdiv (c2 * ((9 : Nat) : Int)) (2 ^ 2))
        right [3, 5] = [7, -2] :=
  alac_decorrelation_inverse [7, -2] [3, 5] 2 9 (by norm_num) (by norm_num)

/-- Claim C7, counterexample to the claim as frozen.  With ch1 = [0],
ch2 = [1], shift 1, leftweight 1 the decoder produces left = [1],
right = [0]; the claim's recomputation ch1 = left - right gives 1, which is
not the original ch1 value 0 (left - right equals ch2, not ch1). -/
theorem alac_decorrelation_claim_swapped :
    decorrelate_channels [[0], [1]] 1 1 = [[1], [0]] ∧ ¬ ((1 : Int) - 0 = 0) := by
  constructor
  · decide
  · decide

/-- Claim C8 (confirmed).  Whenever the channel count differs from 2, or
the interlacing leftweight is 0, decorrelate_channels returns its input
unmodified, for every interlacing shift. -/
theorem alac_decorrelation_passthrough (channel_data : List (List Int))
    (shift lw : Nat) (h : channel_data.length ≠ 2 ∨ lw = 0) :
    decorrelate_channels channel_data shift lw = channel_data := by
  cases channel_data with
  | nil => rfl
  | cons a t =>
    cases t with
    | nil => rfl
    | cons b t2 =>
      cases t2 with
      | nil =>
        rcases h with h | h
        · simp at h
        · simp [decorrelate_channels, h]
      | cons c t3 => rfl

/-- Claim C8 witness: the concrete pass-through scenario shift = 1,
leftweight = 0 on a 2-channel frameset. -/
theorem alac_decorrelation_passthrough_witness :
    decorrelate_channels [[1, 2], [3, 4]] 1 0 = [[1, 2], [3, 4]] :=
  alac_decorrelation_passthrough [[1, 2], [3, 4]] 1 0 (Or.inr rfl)

/-! Predictor reconstruction lemmas (claims C6, C9, C10). -/

/-- Warm-up produces one sample per residual plus the seeded first sample. -/
theorem warm_up_length (l : List Int) : ∀ (acc : Int),
    (warm_up acc l).length = l.length + 1 := by
  induction l with
  | nil => intro acc; rfl
  | cons r rs ih => intro acc; simp [warm_up, ih]

/-- The warm-up list always starts with its accumulator. -/
theorem warm_up_head_tail (acc : Int) (l : List Int) :
    warm_up acc l = acc :: (warm_up acc l).tail := by
  cases l <;> simp [warm_up]

/-- Peeling the first element off the spec-side cumulative sum folds it
into the accumulator. -/
theorem spec_cumsum_cons (a b : Int) (l : List Int) :
    spec_cumulative_sum (a :: b :: l) = a :: spec_cumulative_sum ((a + b) :: l) := by
  unfold spec_cumulative_sum
  simp only [List.length_cons]
  rw [List.range_succ_eq_map]
  simp only [List.map_cons, List.map_map, List.take_succ_cons, List.take_zero,
    List.sum_cons, List.sum_nil, add_zero]
  refine congrArg₂ List.cons rfl ?_
  refine List.map_congr_left ?_
  intro i _
  simp [List.take_succ_cons, add_assoc]

/-- The source warm-up accumulator recursion computes the spec's
cumulative sums. -/
theorem warm_up_spec : ∀ (l : List Int) (acc : Int),
    warm_up acc l = spec_cumulative_sum (acc :: l) := by
  intro l
  induction l with
  | nil => intro acc; simp [warm_up, spec_cumulative_sum]
  | cons r rs ih =>
    intro acc
    rw [warm_up, ih (acc + r), spec_cumsum_cons]

/-- The element appended at the end of a list is read back by getD at the
old length. -/
theorem getD_snoc (l : List Int) (x d : Int) : (l ++ [x]).getD l.length d = x := by
  induction l with
  | nil => rfl
  | cons a t ih => simp [ih]

/-- With a positive shift, the rounding constant floor-divides to zero. -/
theorem fdiv_round_zero (s : Nat) (hs : s ≠ 0) :
    Int.fdiv (2 ^ (s - 1) + 0) (2 ^ s) = 0 := by
  rw [add_zero, Int.fdiv_eq_ediv _ (by positivity)]
  refine Int.ediv_eq_zero_of_lt (by positivity) ?_
  exact pow_lt_pow_right₀ (by norm_num) (by omega)

/-- Order-0 steady state: every step appends previous sample + residual,
so the loop extends the buffer with the running-sum tail. -/
theorem decode_loop_order0 (s : Nat) (hs : s ≠ 0) :
    ∀ (rs samples : List Int),
      decode_loop s 0 rs samples [] =
        some (samples ++
          (warm_up (samples.getD (samples.length - 1) 0) rs).tail, []) := by
  intro rs
  induction rs with
  | nil => intro samples; simp [decode_loop, warm_up]
  | cons r rest ih =>
    intro samples
    simp only [decode_loop, if_neg hs, List.reverse_nil, List.zip_nil_right,
      List.foldl_nil, List.drop_length, fdiv_round_zero s hs, adapt_pos,
      adapt_neg, ite_self]
    rw [ih (samples ++ [0 + r + samples.getD (samples.length - 1) 0])]
    have hlen : (samples ++ [0 + r + samples.getD (samples.length - 1) 0]).length - 1
        = samples.length := by simp
    rw [hlen, getD_snoc]
    have harith : (0 : Int) + r + samples.getD (samples.length - 1) 0
        = samples.getD (samples.length - 1) 0 + r := by ring
    rw [harith]
    rw [warm_up, List.tail_cons]
    rw [warm_up_head_tail (samples.getD (samples.length - 1) 0 + r) rest]
    simp

/-- Claim C6 (confirmed).  With an empty coefficient table and a positive
QLP shift, decode_subframe returns exactly the cumulative sums of the
residuals and leaves the (empty) coefficient table untouched. -/
theorem alac_order0_cumulative_sum (qlp_shift : Nat) (residuals : List Int)
    (hs : 1 ≤ qlp_shift) (hne : residuals ≠ []) :
    decode_subframe qlp_shift [] residuals =
      some (spec_cumulative_sum residuals, []) := by
  obtain ⟨r0, rest, rfl⟩ := List.exists_cons_of_ne_nil hne
  simp only [decode_subframe, List.length_nil, Nat.zero_le, if_pos,
    List.take_zero, List.drop_zero, warm_up]
  rw [decode_loop_order0 qlp_shift (by omega) rest [r0]]
  rw [show (([r0] : List Int).getD (([r0] : List Int).length - 1) 0) = r0 from rfl]
  rw [show ([r0] : List Int) ++ (warm_up r0 rest).tail
      = r0 :: (warm_up r0 rest).tail from rfl]
  rw [← warm_up_head_tail r0 rest, warm_up_spec rest r0]

/-- Claim C6 witness: the spec's concrete scenario, residuals [5, -3, 2, 0]
with order 0 reconstruct to [5, 2, 4, 4] with no coefficient mutation. -/
theorem alac_order0_cumulative_sum_witness :
    decode_subframe 4 [] [5, -3, 2, 0] = some ([5, 2, 4, 4], []) := by
  have h := alac_order0_cumulative_sum 4 [5, -3, 2, 0] (by norm_num) (by simp)
  exact h.trans (by decide)

/-- Steady state with a positive shift never fails and appends exactly one
sample per residual, for any window length parameter and coefficient
table. -/
theorem decode_loop_some_length (s n : Nat) (hs : s ≠ 0) :
    ∀ (rs samples coeffs : List Int),
      ∃ out, decode_loop s n rs samples coeffs = some out ∧
        out.1.length = samples.length + rs.length := by
  intro rs
  induction rs with
  | nil =>
    intro samples coeffs
    exact ⟨(samples, coeffs), by simp [decode_loop]⟩
  | cons r rest ih =>
    intro samples coeffs
    simp only [decode_loop, if_neg hs]
    obtain ⟨out, heq, hlen⟩ := ih
      (samples ++ [Int.fdiv (2 ^ (s - 1) +
          ((samples.drop (samples.length - n)).zip coeffs.reverse).foldl
            (fun acc p => acc + (p.1 - samples.getD (samples.length - (n + 1)) 0) * p.2) 0)
          (2 ^ s) + r + samples.getD (samples.length - (n + 1)) 0])
      (if r > 0 then
        (adapt_pos s n (samples.drop (samples.length - (n + 1))) n coeffs r).1
       else if r < 0 then
        (adapt_neg s n (samples.drop (samples.length - (n + 1))) n coeffs r).1
       else coeffs)
    refine ⟨out, heq, ?_⟩
    rw [hlen]
    simp
    omega

/-- Claim C9 (confirmed).  With a positive QLP shift and at least order + 1
residuals, decode_subframe succeeds and emits exactly one sample per input
residual across the warm-up and steady-state phases. -/
theorem alac_predictor_length_preservation (qlp_shift : Nat)
    (coeffs residuals : List Int) (hs : 1 ≤ qlp_shift)
    (hlen : coeffs.length + 1 ≤ residuals.length) :
    ∃ out, decode_subframe qlp_shift coeffs residuals = some out ∧
      out.1.length = residuals.length := by
  cases residuals with
  | nil => simp at hlen
  | cons r0 rest =>
    have hle : coeffs.length ≤ rest.length := by
      simp only [List.length_cons] at hlen; omega
    simp only [decode_subframe, if_pos hle]
    obtain ⟨out, heq, hl⟩ := decode_loop_some_length qlp_shift coeffs.length
      (by omega) (rest.drop coeffs.length) (warm_up r0 (rest.take coeffs.length))
      coeffs
    refine ⟨out, heq, ?_⟩
    rw [hl, warm_up_length]
    simp only [List.length_take, List.length_drop, List.length_cons]
    omega

/-- Claim C9 witness at order 2, shift 9, five residuals. -/
theorem alac_predictor_length_preservation_witness :
    ∃ out, decode_subframe 9 [1, 2] [5, -3, 2, 0, 7] = some out ∧
      out.1.length = 5 := by
  have h := alac_predictor_length_preservation 9 [1, 2] [5, -3, 2, 0, 7]
    (by norm_num) (by simp)
  simpa using h

/-- Claim C10 (confirmed).  With a nonzero QLP shift of 0, a non-empty
coefficient table and more residuals than order + 1, the steady-state
rounding term 1 << (qlp_shift - 1) is a negative-count shift in Python
(ValueError), so decode_subframe fails instead of returning samples. -/
theorem alac_qlp_shift_zero_failure (coeffs residuals : List Int)
    (_hc : coeffs ≠ []) (hlen : coeffs.length + 1 < residuals.length) :
    decode_subframe 0 coeffs residuals = none := by
  cases residuals with
  | nil => simp at hlen
  | cons r0 rest =>
    have hle : coeffs.length ≤ rest.length := by
      simp only [List.length_cons] at hlen; omega
    simp only [decode_subframe, if_pos hle]
    have hdrop : rest.drop coeffs.length ≠ [] := by
      intro h
      have := congrArg List.length h
      simp only [List.length_drop, List.length_nil] at this
      simp only [List.length_cons] at hlen
      omega
    obtain ⟨x, xs, hx⟩ := List.exists_cons_of_ne_nil hdrop
    rw [hx]
    simp [decode_loop]

/-- Claim C10 witness: order 1, shift 0, three residuals fails. -/
theorem alac_qlp_shift_zero_failure_witness :
    decode_subframe 0 [1] [0, 0, 0] = none :=
  alac_qlp_shift_zero_failure [1] [0, 0, 0] (by simp) (by simp)

/-! Residual decoder lemmas (claims C1 and C2). -/

/-- The residual loop produces at least rem residuals whenever it
completes, provided the iteration bound dominates rem (as it does at the
entry point, where both start at sample_count). -/
theorem read_residuals_loop_length (mult maxK : Nat) (ss : Int) :
    ∀ (fuel rem : Nat) (history : Int) (sm : Nat) (br : BitReader)
      (rs hs : List Int) (br1 : BitReader), rem ≤ fuel →
      read_residuals_loop mult maxK ss fuel rem history sm br = some (rs, hs, br1) →
      rem ≤ rs.length := by
  intro fuel
  induction fuel with
  | zero =>
    intro rem history sm br rs hs br1 hrem heq
    omega
  | succ f ih =>
    intro rem history sm br rs hs br1 hrem heq
    cases rem with
    | zero => omega
    | succ r =>
      simp only [read_residuals_loop] at heq
      cases h1 : read_residual (rice_k maxK history) ss br with
      | none => rw [h1] at heq; simp at heq
      | some v =>
        rw [h1] at heq
        obtain ⟨u0, br2⟩ := v
        simp only at heq
        split at heq
        · cases h2 : read_residual
              (zeroes_k_of maxK (history_update mult history (u0 + sm))) 16 br2 with
          | none => rw [h2] at heq; simp at heq
          | some w =>
            rw [h2] at heq
            obtain ⟨z, br3⟩ := w
            simp only at heq
            cases h3 : read_residuals_loop mult maxK ss f (r - z) 0
                (if z ≤ 0xFFFF then 1 else 0) br3 with
            | none => rw [h3] at heq; simp at heq
            | some out =>
              rw [h3] at heq
              obtain ⟨rs2, hs2, br4⟩ := out
              simp only [Option.some.injEq, Prod.mk.injEq] at heq
              obtain ⟨hrs, -, -⟩ := heq
              have hrec : r - z ≤ rs2.length :=
                ih (r - z) 0 (if z ≤ 0xFFFF then 1 else 0) br3 rs2 hs2 br4
                  (by omega) h3
              subst hrs
              simp only [List.length_cons, List.length_append,
                List.length_replicate]
              omega
        · cases h3 : read_residuals_loop mult maxK ss f r
              (history_update mult history (u0 + sm)) 0 br2 with
          | none => rw [h3] at heq; simp at heq
          | some out =>
            rw [h3] at heq
            obtain ⟨rs2, hs2, br4⟩ := out
            simp only [Option.some.injEq, Prod.mk.injEq] at heq
            obtain ⟨hrs, -, -⟩ := heq
            have hrec : r ≤ rs2.length :=
              ih r (history_update mult history (u0 + sm)) 0 br2 rs2 hs2 br4
                (by omega) h3
            subst hrs
            simp only [List.length_cons]
            omega

/-- Claim C1 (amended).  Every completed read_residuals call returns at
least sample_count residuals (zero-run splices included); the exact-count
claim fails because a zero-run may overrun the remaining budget, see the
counterexample. -/
theorem alac_residual_count_lower_bound (mult maxK initial_history : Nat)
    (sample_size : Int) (sample_count : Nat) (br br1 : BitReader)
    (rs : List Int)
    (h : read_residuals mult maxK initial_history sample_size sample_count br =
      some (rs, br1)) :
    sample_count ≤ rs.length := by
  unfold read_residuals at h
  cases heq : read_residuals_loop mult maxK sample_size sample_count
      sample_count (initial_history : Int) 0 br with
  | none => rw [heq] at h; simp at h
  | some out =>
    rw [heq] at h
    obtain ⟨rs2, hs2, br2⟩ := out
    simp only [Option.some.injEq, Prod.mk.injEq] at h
    obtain ⟨hrs, -⟩ := h
    subst hrs
    exact read_residuals_loop_length mult maxK sample_size sample_count
      sample_count (initial_history : Int) 0 br rs2 hs2 br2 (le_refl _) heq

/-- Claim C1 witness: a two-bit stream yields the single requested
residual. -/
theorem alac_residual_count_lower_bound_witness :
    read_residuals 40 9 0 16 1 ⟨[false, false], 0⟩ = some ([0], ⟨[], 2⟩) ∧
      1 ≤ ([(0 : Int)]).length := by
  have he : read_residuals 40 9 0 16 1 ⟨[false, false], 0⟩ =
      some ([0], ⟨[], 2⟩) := by decide
  exact ⟨he, alac_residual_count_lower_bound 40 9 0 16 1 _ _ _ he⟩

/-- Claim C1 counterexample to the exact-count claim.  Two residuals are
requested, but the stream encodes a first residual that collapses history
to zero followed by a zero-run count of 5, so the decoder splices five
zeros past the remaining budget of one and returns six residuals. -/
theorem alac_residual_count_overrun :
    (read_residuals 40 9 0 16 2
      ⟨List.replicate 9 true ++ List.replicate 16 false ++
        List.replicate 9 true ++ (List.replicate 13 false ++
        [true, false, true]), 0⟩).map (fun out => out.1.length) = some 6 ∧
      (6 : Nat) ≠ 2 := by
  constructor
  · decide
  · decide

/-- One step of the history update keeps the history nonnegative for any
8-bit multiplier, since (history*mult) >> 9 never exceeds history when
mult < 512. -/
theorem history_update_nonneg (mult : Nat) (history : Int) (unsigned : Nat)
    (hh : 0 ≤ history) (hm : mult ≤ 255) :
    0 ≤ history_update mult history unsigned := by
  unfold history_update
  split
  · have h1 : Int.fdiv (history * (mult : Int)) (2 ^ 9) ≤ history := by
      rw [Int.fdiv_eq_ediv _ (by norm_num)]
      calc history * (mult : Int) / 2 ^ 9
          ≤ history * 2 ^ 9 / 2 ^ 9 := by
            refine Int.ediv_le_ediv (by norm_num) ?_
            refine mul_le_mul_of_nonneg_left ?_ hh
            exact_mod_cast hm.trans (by norm_num)
        _ = history := Int.mul_ediv_cancel _ (by norm_num)
    have h2 : (0 : Int) ≤ ((unsigned * mult : Nat) : Int) := Int.natCast_nonneg _
    omega
  · norm_num

/-- Every history value traced by the residual loop is nonnegative when the
multiplier fits in 8 bits and the entry history is nonnegative. -/
theorem read_residuals_loop_histories_nonneg (mult maxK : Nat) (ss : Int)
    (hm : mult ≤ 255) :
    ∀ (fuel rem : Nat) (history : Int) (sm : Nat) (br : BitReader)
      (rs hs : List Int) (br1 : BitReader), 0 ≤ history →
      read_residuals_loop mult maxK ss fuel rem history sm br = some (rs, hs, br1) →
      ∀ x ∈ hs, 0 ≤ x := by
  intro fuel
  induction fuel with
  | zero =>
    intro rem history sm br rs hs br1 hh heq
    simp only [read_residuals_loop, Option.some.injEq, Prod.mk.injEq] at heq
    obtain ⟨-, hhs, -⟩ := heq
    subst hhs
    simp
  | succ f ih =>
    intro rem history sm br rs hs br1 hh heq
    cases rem with
    | zero =>
      simp only [read_residuals_loop, Option.some.injEq, Prod.mk.injEq] at heq
      obtain ⟨-, hhs, -⟩ := heq
      subst hhs
      simp
    | succ r =>
      simp only [read_residuals_loop] at heq
      cases h1 : read_residual (rice_k maxK history) ss br with
      | none => rw [h1] at heq; simp at heq
      | some v =>
        rw [h1] at heq
        obtain ⟨u0, br2⟩ := v
        simp only at heq
        have hstep : 0 ≤ history_update mult history (u0 + sm) :=
          history_update_nonneg mult history (u0 + sm) hh hm
        split at heq
        · cases h2 : read_residual
              (zeroes_k_of maxK (history_update mult history (u0 + sm))) 16 br2 with
          | none => rw [h2] at heq; simp at heq
          | some w =>
            rw [h2] at heq
            obtain ⟨z, br3⟩ := w
            simp only at heq
            cases h3 : read_residuals_loop mult maxK ss f (r - z) 0
                (if z ≤ 0xFFFF then 1 else 0) br3 with
            | none => rw [h3] at heq; simp at heq
            | some out =>
              rw [h3] at heq
              obtain ⟨rs2, hs2, br4⟩ := out
              simp only [Option.some.injEq, Prod.mk.injEq] at heq
              obtain ⟨-, hhs, -⟩ := heq
              subst hhs
              intro x hx
              simp only [List.mem_cons] at hx
              rcases hx with rfl | rfl | hx
              · exact hstep
              · norm_num
              · exact ih (r - z) 0 (if z ≤ 0xFFFF then 1 else 0) br3 rs2 hs2
                  br4 (by norm_num) h3 x hx
        · cases h3 : read_residuals_loop mult maxK ss f r
              (history_update mult history (u0 + sm)) 0 br2 with
          | none => rw [h3] at heq; simp at heq
          | some out =>
            rw [h3] at heq
            obtain ⟨rs2, hs2, br4⟩ := out
            simp only [Option.some.injEq, Prod.mk.injEq] at heq
            obtain ⟨-, hhs, -⟩ := heq
            subst hhs
            intro x hx
            simp only [List.mem_cons] at hx
            rcases hx with rfl | hx
            · exact hstep
            · exact ih r (history_update mult history (u0 + sm)) 0 br2 rs2 hs2
                br4 hstep h3 x hx

/-- Claim C2 (amended).  For any 8-bit history multiplier the history state
stays nonnegative after every update step (including zero-run resets); the
claimed upper bound 0xFFFF does not hold after the additive update, see
the counterexample. -/
theorem alac_history_nonneg (mult maxK initial_history : Nat)
    (sample_size : Int) (sample_count : Nat) (br : BitReader) (hs : List Int)
    (hm : mult ≤ 255)
    (h : read_residuals_histories mult maxK initial_history sample_size
      sample_count br = some hs) :
    ∀ x ∈ hs, 0 ≤ x := by
  unfold read_residuals_histories at h
  cases heq : read_residuals_loop mult maxK sample_size sample_count
      sample_count (initial_history : Int) 0 br with
  | none => rw [heq] at h; simp at h
  | some out =>
    rw [heq] at h
    obtain ⟨rs2, hs2, br2⟩ := out
    simp only [Option.some.injEq] at h
    subst h
    exact read_residuals_loop_histories_nonneg mult maxK sample_size hm
      sample_count sample_count (initial_history : Int) 0 br rs2 hs2 br2
      (Int.natCast_nonneg _) heq

/-- Claim C2 witness: the history trace of a decoded two-bit stream is
[0], and every traced value is nonnegative. -/
theorem alac_history_nonneg_witness :
    read_residuals_histories 40 9 0 16 1 ⟨[false, false], 0⟩ = some [0] ∧
      ∀ x ∈ [(0 : Int)], 0 ≤ x := by
  have he : read_residuals_histories 40 9 0 16 1 ⟨[false, false], 0⟩ =
      some [0] := by decide
  exact ⟨he, alac_history_nonneg 40 9 0 16 1 _ _ (by norm_num) he⟩

/-- Claim C2 counterexample to the upper bound.  A single residual with
unsigned value 0xFFFF (reached through the unary escape) and multiplier 40
drives history to 0 + 0xFFFF*40 = 2621400, far above 0xFFFF: the additive
update is not clamped. -/
theorem alac_history_exceeds_ffff :
    read_residuals_histories 40 9 0 16 1
      ⟨List.replicate 9 true ++ List.replicate 16 true, 0⟩ = some [2621400] ∧
      ¬ ((2621400 : Int) ≤ 0xFFFF) := by
  constructor
  · decide
  · decide

/-! Modified Rice code lemmas (claim C4). -/

/-- Claim C4 (confirmed).  For k > 0 and a unary prefix of msb < 9
continuation bits: a k-bit suffix is read; suffix value 0 pushes back no
bits and yields msb*(2^k - 1); suffix value 1 pushes one bit back onto the
stream and yields the same msb*(2^k - 1); suffix values of at least 2
yield msb*(2^k - 1) + (suffix - 1); and when the unary run reaches 9
without terminating, the value is a fixed-width sample_size-bit field with
no suffix. -/
theorem alac_rice_code_cases (k : Nat) (hk : 0 < k) (sample_size : Int)
    (msb : Nat) (hmsb : msb < 9) (suffix rest : List Bool)
    (hlen : suffix.length = k) (pos : Nat) (w : Nat) (vbits rest2 : List Bool)
    (hv : vbits.length = w) (pos2 : Nat) :
    (bitsVal suffix = 0 →
      read_residual k sample_size
        ⟨List.replicate msb true ++ false :: (suffix ++ rest), pos⟩ =
        some (msb * (2 ^ k - 1), ⟨rest, pos + msb + 1 + k⟩)) ∧
    (bitsVal suffix = 1 →
      read_residual k sample_size
        ⟨List.replicate msb true ++ false :: (suffix ++ rest), pos⟩ =
        some (msb * (2 ^ k - 1), ⟨true :: rest, pos + msb + k⟩)) ∧
    (2 ≤ bitsVal suffix →
      read_residual k sample_size
        ⟨List.replicate msb true ++ false :: (suffix ++ rest), pos⟩ =
        some (msb * (2 ^ k - 1) + (bitsVal suffix - 1), ⟨rest, pos + msb + 1 + k⟩)) ∧
    (read_residual k (w : Int)
        ⟨List.replicate 9 true ++ (vbits ++ rest2), pos2⟩ =
        some (bitsVal vbits, ⟨rest2, pos2 + 9 + w⟩)) := by
  have hu := limitedUnary_term (suffix ++ rest) 9 msb pos hmsb
  have hb : readBits k ⟨suffix ++ rest, pos + (msb + 1)⟩ =
      some (bitsVal suffix, ⟨rest, pos + (msb + 1) + k⟩) := by
    have := readBits_append suffix rest (pos + (msb + 1))
    rwa [hlen] at this
  have hshift : (1 <<< k) - 1 = 2 ^ k - 1 := by
    rw [Nat.shiftLeft_eq, one_mul]
  refine ⟨?_, ?_, ?_, ?_⟩
  · intro h0
    rw [read_residual, hu]
    simp only [if_neg (Nat.pos_iff_ne_zero.mp hk), hb, h0, hshift]
    norm_num
    omega
  · intro h1
    rw [read_residual, hu]
    simp only [if_neg (Nat.pos_iff_ne_zero.mp hk), hb, h1, hshift]
    norm_num [pushBit]
    omega
  · intro h2
    have hpe : pos + (msb + 1) + k = pos + msb + 1 + k := by omega
    rw [read_residual, hu]
    simp only [if_neg (Nat.pos_iff_ne_zero.mp hk), hb, hshift, hpe]
    rw [if_pos (by omega : bitsVal suffix > 1)]
  · have hm := limitedUnary_maxed (vbits ++ rest2) 9 pos2
    rw [read_residual, hm]
    simp only [readBitsI]
    rw [if_neg (by exact_mod_cast Int.not_lt.mpr (Int.natCast_nonneg w))]
    have : ((w : Int)).toNat = w := Int.toNat_natCast w
    rw [this]
    have := readBits_append vbits rest2 (pos2 + 9)
    rw [hv] at this
    rw [this]

/-- Claim C4 witness: k = 2, msb = 1.  Suffix 00 consumes all four read
bits and yields 3; suffix 01 yields 3 with the final bit pushed back;
suffix 10 yields 4; and nine continuation bits trigger the 3-bit
fixed-width escape reading value 5. -/
theorem alac_rice_code_cases_witness :
    read_residual 2 0 ⟨[true, false, false, false, true], 0⟩ =
      some (3, ⟨[true], 4⟩) ∧
    read_residual 2 0 ⟨[true, false, false, true, true], 0⟩ =
      some (3, ⟨[true, true], 3⟩) ∧
    read_residual 2 0 ⟨[true, false, true, false, true], 0⟩ =
      some (4, ⟨[true], 4⟩) ∧
    read_residual 2 3 ⟨List.replicate 9 true ++ [true, false, true, true], 0⟩ =
      some (5, ⟨[true], 12⟩) := by
  refine ⟨?_, ?_, ?_, ?_⟩
  · have h := (alac_rice_code_cases 2 (by norm_num) 0 1 (by norm_num)
      [false, false] [true] (by decide) 0 0 [] [] (by decide) 0).1 (by decide)
    exact h.trans (by decide)
  · have h := (alac_rice_code_cases 2 (by norm_num) 0 1 (by norm_num)
      [false, true] [true] (by decide) 0 0 [] [] (by decide) 0).2.1 (by decide)
    exact h.trans (by decide)
  · have h := (alac_rice_code_cases 2 (by norm_num) 0 1 (by norm_num)
      [true, false] [true] (by decide) 0 0 [] [] (by decide) 0).2.2.1 (by decide)
    exact h.trans (by decide)
  · have h := (alac_rice_code_cases 2 (by norm_num) 0 1 (by norm_num)
      [true, false] [true] (by decide) 0 3 [true, false, true] [true]
      (by decide) 0).2.2.2
    exact h.trans (by decide)

/-! Subframe header lemmas (claim C5). -/

/-- Claim C5 counterexample.  A header whose 4-bit prediction type field is
15 (a reserved, nonzero type) is decoded without any error: the reader
returns the shift and coefficient table instead of failing. -/
theorem alac_reserved_prediction_type_accepted :
    read_subframe_header ⟨[true, true, true, true, false, false, true, false,
      false, false, false, false, false, false, false, false], 0⟩ =
      some ((2, []), ⟨[], 16⟩) := by
  decide

/-- Claim C5 (amended).  read_subframe_header reads the 4-bit prediction
type and discards it: the result is identical for any two values of those
four bits, so reserved prediction types are silently accepted rather than
rejected. -/
theorem alac_subframe_header_ignores_prediction_type
    (p4 q4 rest : List Bool) (pos : Nat) (h1 : p4.length = 4)
    (h2 : q4.length = 4) :
    read_subframe_header ⟨p4 ++ rest, pos⟩ =
      read_subframe_header ⟨q4 ++ rest, pos⟩ := by
  have e1 : readBits 4 ⟨p4 ++ rest, pos⟩ = some (bitsVal p4, ⟨rest, pos + 4⟩) := by
    have := readBits_append p4 rest pos
    rwa [h1] at this
  have e2 : readBits 4 ⟨q4 ++ rest, pos⟩ = some (bitsVal q4, ⟨rest, pos + 4⟩) := by
    have := readBits_append q4 rest pos
    rwa [h2] at this
  rw [read_subframe_header, read_subframe_header, e1, e2]
  rfl

/-- Claim C5 amended-theorem witness: flipping the prediction type field
from 15 to 0 leaves the parsed header unchanged. -/
theorem alac_subframe_header_ignores_prediction_type_witness :
    read_subframe_header ⟨[true, true, true, true] ++ [false, false, true,
      false, false, false, false, false, false, false, false, false], 0⟩ =
      read_subframe_header ⟨[false, false, false, false] ++ [false, false,
      true, false, false, false, false, false, false, false, false, false],
      0⟩ :=
  alac_subframe_header_ignores_prediction_type _ _ _ 0 (by decide) (by decide)

/-! Remaining-frame counter lemmas (claim C3). -/

/-- Claim C3 (confirmed).  When total_pcm_frames is 0, read returns an
empty PCM block and leaves the whole state (counter and reader, whatever
bits remain) unchanged — so every subsequent call also returns empty; and
for every successful read the counter never increases, since the produced
frame count is subtracted from it and is nonnegative. -/
theorem alac_read_frame_budget (p : ALACParams) (tpf : Int) (br : BitReader) :
    (tpf = 0 → read p tpf br = some (([], p.channels), tpf, br)) ∧
    (∀ block tpf1 br1, read p tpf br = some (block, tpf1, br1) → tpf1 ≤ tpf) := by
  constructor
  · intro h
    simp [read, h]
  · intro block tpf1 br1 h
    unfold read at h
    by_cases h0 : tpf = 0
    · rw [if_pos h0] at h
      simp only [Option.some.injEq, Prod.mk.injEq] at h
      obtain ⟨-, htpf, -⟩ := h
      omega
    · rw [if_neg h0] at h
      cases hf : read_frameset p (br.bits.length + 1) br with
      | none => rw [hf] at h; simp at h
      | some v =>
        rw [hf] at h
        obtain ⟨fd, br2⟩ := v
        simp only at h
        split at h
        · simp only [Option.some.injEq, Prod.mk.injEq] at h
          obtain ⟨-, htpf, -⟩ := h
          have hnn : (0 : Int) ≤
              (((interleave_samples fd).length / fd.length : Nat) : Int) :=
            Int.natCast_nonneg _
          omega
        · simp at h

/-- Claim C3 witness: with an exhausted counter the decoder ignores the
remaining bit and returns the empty block with the state unchanged. -/
theorem alac_read_frame_budget_witness :
    read ⟨4096, 16, 40, 10, 14, 2⟩ 0 ⟨[true], 0⟩ =
      some (([], 2), 0, ⟨[true], 0⟩) :=
  (alac_read_frame_budget ⟨4096, 16, 40, 10, 14, 2⟩ 0 ⟨[true], 0⟩).1 rfl
